import Mathlib

/-!
Verification of the MiFID transaction report generator
(src/mifid_tx_gen): macro resolution (config.py), field mapping
(mapper.py), and the two XML builders (xml_builder.py,
xml_builder_iso.py), shallowly embedded over `Str := List Char`
(Python strings as character lists, so that Python's `split`/`strip`
semantics are modelled exactly) and an explicit element-tree type.
-/

/-- Python strings, modelled as lists of characters. -/
abbrev Str := List Char

/-- Conversion from Lean string literals. -/
def strOf (s : String) : Str := s.toList

/-- Python's `s.split(sep)` for a one-character separator: never drops
empty components, `"".split(sep) = [""]`. -/
def splitOnChar (sep : Char) : Str → List Str
  | [] => [[]]
  | c :: cs =>
    if c = sep then [] :: splitOnChar sep cs
    else
      match splitOnChar sep cs with
      | [] => [[c]]
      | s :: ss => (c :: s) :: ss

/-- The two brace characters, as stripped by Python's `value.strip("{}")`. -/
def isBrace (c : Char) : Bool := c = '\x7b' || c = '\x7d'

/-- Left part of Python's `value.strip("{}")`. -/
def lstripBr (s : Str) : Str := s.dropWhile isBrace

/-- Right part of Python's `value.strip("{}")`. -/
def rstripBr (s : Str) : Str := (s.reverse.dropWhile isBrace).reverse

/-- Python's `value.strip("{}")`. -/
def stripBr (s : Str) : Str := rstripBr (lstripBr s)

/-- Python's `s.endswith(c)` for a single character. -/
def lastIs (s : Str) (c : Char) : Bool := s.getLast? == some c

/-- The literal prefix `{ENV:` tested by `resolve_macros`
(config.py line 87, `value.startswith("{ENV:")`). -/
def ENVHEAD : Str := strOf "\x7bENV:"

/-- The literal `{NOW_ISO}` tested by `resolve_macros` (config.py line 95). -/
def NOWSTR : Str := strOf "\x7bNOW_ISO\x7d"

/-- The guard of the ENV branch of `resolve_macros` (config.py line 87):
`value.startswith("{ENV:") and value.endswith("}")`. -/
def isEnvForm (s : Str) : Bool := ENVHEAD.isPrefixOf s && lastIs s '\x7d'

/-- `resolve_macros` (config.py lines 82-99).  The process environment is
an explicit map `env` (`os.getenv(var, default)` is `(env var).getD default`)
and the clock is an explicit `now` (the `datetime.now` result of the
`{NOW_ISO}` branch), both held fixed.
The ENV branch: `parts = value.strip("{}").split(":")`, then
`_, var, *rest = parts`, `default = rest[0] if rest else ""`. -/
def resolve_macros (env : Str → Option Str) (now : Str) (value : Str) : Str :=
  if isEnvForm value then
    let parts := splitOnChar ':' (stripBr value)
    let var := parts.getD 1 []
    let dflt := parts.getD 2 []
    (env var).getD dflt
  else if value = NOWSTR then now
  else value

/-- A character that may appear in an environment-variable name or a
default literal without disturbing the parse of `{ENV:NAME:default}`:
not a colon and not a brace. -/
def plainChar (c : Char) : Bool := !(c = ':' || isBrace c)

/-- All characters of the string are `plainChar`. -/
def plainStr (s : Str) : Bool := s.all plainChar

/-! ### String lemmas for the macro resolver -/

theorem splitOnChar_sepFree (sep : Char) (s : Str) (h : ∀ c ∈ s, c ≠ sep) :
    splitOnChar sep s = [s] := by
  induction s with
  | nil => rfl
  | cons c cs ih =>
    have hc : c ≠ sep := h c (List.mem_cons_self c cs)
    have : splitOnChar sep cs = [cs] := ih (fun x hx => h x (List.mem_cons_of_mem _ hx))
    simp [splitOnChar, hc, this]

theorem splitOnChar_append (sep : Char) (a b : Str) (h : ∀ c ∈ a, c ≠ sep) :
    splitOnChar sep (a ++ sep :: b) = a :: splitOnChar sep b := by
  induction a with
  | nil => simp [splitOnChar]
  | cons c cs ih =>
    have hc : c ≠ sep := h c (List.mem_cons_self c cs)
    have hrec := ih (fun x hx => h x (List.mem_cons_of_mem _ hx))
    have hstep : (c :: cs) ++ sep :: b = c :: (cs ++ sep :: b) := rfl
    rw [hstep, splitOnChar, if_neg hc, hrec]

theorem dropWhile_of_all_false (p : Char → Bool) (s : Str) (h : ∀ c ∈ s, p c = false) :
    s.dropWhile p = s := by
  cases s with
  | nil => rfl
  | cons c cs => simp [List.dropWhile, h c (List.mem_cons_self c cs)]

theorem rstripBr_of_no_brace (s : Str) (h : ∀ c ∈ s, isBrace c = false) :
    rstripBr s = s := by
  unfold rstripBr
  rw [dropWhile_of_all_false isBrace s.reverse (fun c hc => h c (List.mem_reverse.mp hc))]
  exact List.reverse_reverse s

theorem rstripBr_append_brace (s : Str) : rstripBr (s ++ ['\x7d']) = rstripBr s := by
  unfold rstripBr
  rw [List.reverse_append]
  simp [List.dropWhile, isBrace]

theorem plainStr_no_colon (s : Str) (h : plainStr s = true) : ∀ c ∈ s, c ≠ ':' := by
  intro c hc
  have := List.all_eq_true.mp h c hc
  unfold plainChar at this
  intro hcol
  subst hcol
  simp at this

theorem plainStr_no_brace (s : Str) (h : plainStr s = true) : ∀ c ∈ s, isBrace c = false := by
  intro c hc
  have := List.all_eq_true.mp h c hc
  unfold plainChar at this
  cases hb : isBrace c with
  | false => rfl
  | true => rw [hb] at this; simp at this

/-- The parse of the body of a well-formed ENV macro:
`strip("{}")` of `{ENV:` ++ body ++ `}` is `ENV:` ++ body, when the body
contains no brace. -/
theorem stripBr_env (body : Str) (h : ∀ c ∈ body, isBrace c = false) :
    stripBr (ENVHEAD ++ body ++ ['\x7d']) = strOf "ENV:" ++ body := by
  unfold stripBr lstripBr
  have hE : ENVHEAD ++ body ++ ['\x7d'] = '\x7b' :: (strOf "ENV:" ++ body ++ ['\x7d']) := by
    simp [ENVHEAD, strOf]
  rw [hE]
  have h1 : List.dropWhile isBrace ('\x7b' :: (strOf "ENV:" ++ body ++ ['\x7d'])) =
      List.dropWhile isBrace (strOf "ENV:" ++ body ++ ['\x7d']) := by
    simp [List.dropWhile, isBrace]
  rw [h1]
  have h2 : List.dropWhile isBrace (strOf "ENV:" ++ body ++ ['\x7d']) =
      strOf "ENV:" ++ body ++ ['\x7d'] := by
    have hE2 : strOf "ENV:" ++ body ++ ['\x7d'] =
        'E' :: ('N' :: 'V' :: ':' :: (body ++ ['\x7d'])) := by
      simp [strOf]
    rw [hE2]
    simp [List.dropWhile, isBrace]
  rw [h2, rstripBr_append_brace]
  apply rstripBr_of_no_brace
  intro c hc
  rcases List.mem_append.mp hc with hc2 | hc2
  · have hlit : strOf "ENV:" = ['E', 'N', 'V', ':'] := rfl
    rw [hlit] at hc2
    fin_cases hc2 <;> decide
  · exact h c hc2

theorem isPrefixOf_append (a b : Str) : a.isPrefixOf (a ++ b) = true := by
  induction a with
  | nil => simp [List.isPrefixOf]
  | cons c cs ih => simp [List.isPrefixOf, ih]

theorem isEnvForm_env (body : Str) : isEnvForm (ENVHEAD ++ body ++ ['\x7d']) = true := by
  unfold isEnvForm lastIs
  rw [List.append_assoc, isPrefixOf_append]
  simp

/-- Core computation of the ENV branch on a well-formed macro with an
explicit default: the body `NAME:default` parses to `var := NAME`,
`dflt := default`, when `NAME` and `default` are colon- and brace-free. -/
theorem resolve_macros_env_default (env : Str → Option Str) (now name d : Str)
    (hn : plainStr name = true) (hd : plainStr d = true) :
    resolve_macros env now (ENVHEAD ++ name ++ ':' :: d ++ ['\x7d']) = (env name).getD d := by
  have hb : ∀ c ∈ name ++ ':' :: d, isBrace c = false := by
    intro c hc
    rcases List.mem_append.mp hc with h1 | h1
    · exact plainStr_no_brace name hn c h1
    · rcases List.mem_cons.mp h1 with h2 | h2
      · subst h2; rfl
      · exact plainStr_no_brace d hd c h2
  have hform : isEnvForm (ENVHEAD ++ name ++ ':' :: d ++ ['\x7d']) = true := by
    have := isEnvForm_env (name ++ ':' :: d)
    simpa [List.append_assoc] using this
  have hstrip : stripBr (ENVHEAD ++ name ++ ':' :: d ++ ['\x7d']) =
      strOf "ENV:" ++ (name ++ ':' :: d) := by
    have := stripBr_env (name ++ ':' :: d) hb
    simpa [List.append_assoc] using this
  have hsplit : splitOnChar ':' (strOf "ENV:" ++ (name ++ ':' :: d)) =
      strOf "ENV" :: name :: [d] := by
    have h1 : strOf "ENV:" ++ (name ++ ':' :: d) = strOf "ENV" ++ ':' :: (name ++ ':' :: d) := by
      simp [strOf]
    rw [h1, splitOnChar_append ':' (strOf "ENV") _ (by decide),
        splitOnChar_append ':' name _ (plainStr_no_colon name hn),
        splitOnChar_sepFree ':' d (plainStr_no_colon d hd)]
  unfold resolve_macros
  rw [if_pos hform]
  simp only [hstrip, hsplit]
  rfl

/-- Core computation of the ENV branch on a well-formed macro without a
default: `{ENV:NAME}` parses to `var := NAME`, `dflt := ""`. -/
theorem resolve_macros_env_nodefault (env : Str → Option Str) (now name : Str)
    (hn : plainStr name = true) :
    resolve_macros env now (ENVHEAD ++ name ++ ['\x7d']) = (env name).getD [] := by
  have hform : isEnvForm (ENVHEAD ++ name ++ ['\x7d']) = true := isEnvForm_env name
  have hstrip : stripBr (ENVHEAD ++ name ++ ['\x7d']) = strOf "ENV:" ++ name :=
    stripBr_env name (plainStr_no_brace name hn)
  have hsplit : splitOnChar ':' (strOf "ENV:" ++ name) = strOf "ENV" :: [name] := by
    have h1 : strOf "ENV:" ++ name = strOf "ENV" ++ ':' :: name := by simp [strOf]
    rw [h1, splitOnChar_append ':' (strOf "ENV") _ (by decide),
        splitOnChar_sepFree ':' name (plainStr_no_colon name hn)]
  unfold resolve_macros
  rw [if_pos hform]
  simp only [hstrip, hsplit]
  rfl

/-- A string that is neither an ENV form nor the NOW literal passes
through `resolve_macros` unchanged. -/
theorem resolve_macros_passthrough (env : Str → Option Str) (now s : Str)
    (h1 : isEnvForm s = false) (h2 : s ≠ NOWSTR) :
    resolve_macros env now s = s := by
  unfold resolve_macros
  rw [if_neg (by simp [h1]), if_neg h2]

/-! ### Claims about the macro resolver (C6, C7, C10) -/

/-- A fixed empty environment, used by concrete instances below. -/
def emptyEnv : Str → Option Str := fun _ => none

/-- A fixed clock reading, used by concrete instances below. -/
def fixedNow : Str := strOf "2026-01-01T00:00:00Z"

/-- C6 counterexample: macro resolution is not idempotent as claimed.
With the environment and clock held fixed (empty environment, fixed
clock), the input `{ENV:X:{NOW_ISO}:t}` resolves to the literal default
`{NOW_ISO}` (config.py strips the outer braces, splits the body on every
colon, and takes the first remainder element as the default), and a
second resolution turns that into the clock reading, so
resolve(resolve(s)) differs from resolve(s). -/
theorem claim_C6_counterexample :
    resolve_macros emptyEnv fixedNow
        (resolve_macros emptyEnv fixedNow (strOf "\x7bENV:X:\x7bNOW_ISO\x7d:t\x7d")) ≠
      resolve_macros emptyEnv fixedNow (strOf "\x7bENV:X:\x7bNOW_ISO\x7d:t\x7d") := by
  decide

/-- C6 (amended): macro resolution is idempotent on every string whose
first resolution is not itself one of the two recognized macro forms
(an `{ENV:...}` shape or the `{NOW_ISO}` literal); in particular every
string that is not one of the two recognized macro forms passes through
`resolve_macros` (config.py lines 82-99) unchanged.  Idempotence fails
in general only when the substituted environment value or extracted
default is itself a macro form. -/
theorem claim_C6_amended (env : Str → Option Str) (now : Str) (s : Str)
    (h : isEnvForm (resolve_macros env now s) = false)
    (h2 : resolve_macros env now s ≠ NOWSTR) :
    resolve_macros env now (resolve_macros env now s) = resolve_macros env now s ∧
    (isEnvForm s = false → s ≠ NOWSTR → resolve_macros env now s = s) :=
  ⟨resolve_macros_passthrough env now _ h h2,
   fun h3 h4 => resolve_macros_passthrough env now s h3 h4⟩

/-- C6 witness: the amended idempotence at a concrete input. -/
theorem claim_C6_amended_witness :
    resolve_macros emptyEnv fixedNow (resolve_macros emptyEnv fixedNow (strOf "hello")) =
      resolve_macros emptyEnv fixedNow (strOf "hello") :=
  (claim_C6_amended emptyEnv fixedNow (strOf "hello") (by decide) (by decide)).1

/-- C7: for every environment key NAME (colon- and brace-free, as
environment keys are) and default literal, `{ENV:NAME:default}` resolves
to the environment's value for NAME when set and to the literal default
when unset, and `{ENV:NAME}` resolves to the value when set and the
empty string when unset (config.py lines 87-93). -/
theorem claim_C7 (env : Str → Option Str) (now name d : Str)
    (hn : plainStr name = true) (hd : plainStr d = true) :
    resolve_macros env now (ENVHEAD ++ name ++ ':' :: d ++ ['\x7d']) = (env name).getD d ∧
    resolve_macros env now (ENVHEAD ++ name ++ ['\x7d']) = (env name).getD [] :=
  ⟨resolve_macros_env_default env now name d hn hd,
   resolve_macros_env_nodefault env now name hn⟩

/-- C7 witness: `{ENV:UNSET_VAR:NORE}` resolves to `NORE` under the
empty environment. -/
theorem claim_C7_witness :
    resolve_macros emptyEnv fixedNow
        (ENVHEAD ++ strOf "UNSET_VAR" ++ ':' :: strOf "NORE" ++ ['\x7d']) = strOf "NORE" :=
  (claim_C7 emptyEnv fixedNow (strOf "UNSET_VAR") (strOf "NORE") (by decide) (by decide)).1

/-- C10: when the default portion of an `{ENV:NAME:default}` macro
itself contains a colon (the shape `{ENV:NAME:d1:d2}`), resolution with
the key unset yields only the text up to the first colon of the default
(`d1`, not `d1:d2`): config.py line 88 splits the stripped literal on
every colon and line 91 uses only the first remainder element as the
default. -/
theorem claim_C10 (env : Str → Option Str) (now name d1 d2 : Str)
    (hn : plainStr name = true) (hd1 : plainStr d1 = true)
    (hd2 : ∀ c ∈ d2, isBrace c = false) (hunset : env name = none) :
    resolve_macros env now (ENVHEAD ++ name ++ ':' :: d1 ++ ':' :: d2 ++ ['\x7d']) = d1 := by
  have hb : ∀ c ∈ name ++ ':' :: d1 ++ ':' :: d2, isBrace c = false := by
    intro c hc
    rcases List.mem_append.mp hc with h1 | h1
    · rcases List.mem_append.mp h1 with h2 | h2
      · exact plainStr_no_brace name hn c h2
      · rcases List.mem_cons.mp h2 with h3 | h3
        · subst h3; rfl
        · exact plainStr_no_brace d1 hd1 c h3
    · rcases List.mem_cons.mp h1 with h2 | h2
      · subst h2; rfl
      · exact hd2 c h2
  have hform : isEnvForm (ENVHEAD ++ name ++ ':' :: d1 ++ ':' :: d2 ++ ['\x7d']) = true := by
    have := isEnvForm_env (name ++ ':' :: d1 ++ ':' :: d2)
    simpa [List.append_assoc] using this
  have hstrip : stripBr (ENVHEAD ++ name ++ ':' :: d1 ++ ':' :: d2 ++ ['\x7d']) =
      strOf "ENV:" ++ (name ++ ':' :: d1 ++ ':' :: d2) := by
    have := stripBr_env (name ++ ':' :: d1 ++ ':' :: d2) hb
    simpa [List.append_assoc] using this
  have hsplit : splitOnChar ':' (strOf "ENV:" ++ (name ++ ':' :: d1 ++ ':' :: d2)) =
      strOf "ENV" :: name :: d1 :: splitOnChar ':' d2 := by
    have h1 : strOf "ENV:" ++ (name ++ ':' :: d1 ++ ':' :: d2) =
        strOf "ENV" ++ ':' :: (name ++ ':' :: (d1 ++ ':' :: d2)) := by
      simp [strOf]
    rw [h1, splitOnChar_append ':' (strOf "ENV") _ (by decide),
        splitOnChar_append ':' name _ (plainStr_no_colon name hn),
        splitOnChar_append ':' d1 _ (plainStr_no_colon d1 hd1)]
  unfold resolve_macros
  rw [if_pos hform]
  simp only [hstrip, hsplit]
  show (env name).getD d1 = d1
  rw [hunset]
  rfl

/-- C10 witness: `{ENV:X:a:b}` with `X` unset resolves to `a`. -/
theorem claim_C10_witness :
    resolve_macros emptyEnv fixedNow
        (ENVHEAD ++ strOf "X" ++ ':' :: strOf "a" ++ ':' :: strOf "b" ++ ['\x7d']) = strOf "a" :=
  claim_C10 emptyEnv fixedNow (strOf "X") (strOf "a") (strOf "b")
    (by decide) (by decide) (by decide) rfl

/-! ### The element tree (lxml `_Element`, as used by the builders) -/

/-- An XML element: namespace (an lxml `QName` namespace, `none` for an
element with no namespace), local tag, attribute list (insertion
ordered, as lxml attribute maps are), optional text, children. -/
inductive Elem : Type where
  | mk : Option Str → Str → List (Str × Str) → Option Str → List Elem → Elem

def Elem.ns : Elem → Option Str
  | .mk n _ _ _ _ => n

def Elem.tag : Elem → Str
  | .mk _ t _ _ _ => t

def Elem.attrs : Elem → List (Str × Str)
  | .mk _ _ a _ _ => a

def Elem.text : Elem → Option Str
  | .mk _ _ _ tx _ => tx

def Elem.children : Elem → List Elem
  | .mk _ _ _ _ cs => cs

/-- `current.text = str(value)`. -/
def Elem.setText : Elem → Str → Elem
  | .mk n t a _ cs, v => .mk n t a (some v) cs

/-- Replace the whole child list (the functional image of mutating
`parent`'s children in place). -/
def Elem.setChildren : Elem → List Elem → Elem
  | .mk n t a tx _, cs => .mk n t a tx cs

/-- lxml `element.set(key, value)` on the attribute list: overwrite the
first binding of the key in place, else append. -/
def attrsSet : List (Str × Str) → Str → Str → List (Str × Str)
  | [], k, v => [(k, v)]
  | (k', v') :: rest, k, v =>
    if k' = k then (k, v) :: rest else (k', v') :: attrsSet rest k v

/-- `current.set(attr_name, str(value))`. -/
def Elem.setAttr : Elem → Str → Str → Elem
  | .mk n t a tx cs, k, v => .mk n t (attrsSet a k v) tx cs

/-- `element.get(key)`. -/
def getAttr (e : Elem) (k : Str) : Option Str :=
  (e.attrs.find? (fun p => p.1 == k)).map Prod.snd

/-- `current.find(f"./{ns}{tag}")`: the first direct child whose
qualified tag is `{ns}tag`, together with its position. -/
def findChild (ns tag : Str) : List Elem → Option (Nat × Elem)
  | [] => none
  | c :: cs =>
    if c.ns = some ns ∧ c.tag = tag then some (0, c)
    else (findChild ns tag cs).map (fun p => (p.1 + 1, p.2))

/-- Python `list.insert(pos, x)`: positions past the end append. -/
def insAt : Nat → α → List α → List α
  | _, x, [] => [x]
  | 0, x, l => x :: l
  | n + 1, x, a :: l => a :: insAt n x l

/-- The auth.016 namespace hard-coded in `IsoXmlBuilder._ensure_path`
(xml_builder_iso.py line 113). -/
def NS_AUTH : Str := strOf "urn:iso:std:iso:20022:tech:xsd:auth.016.001.01"

/-- The ordering policy for the inner transaction record node
(xml_builder_iso.py line 116). -/
def INNER_TX_ORDER : List Str :=
  [strOf "TradDt", strOf "TradgCpcty", strOf "Qty", strOf "Pric", strOf "TradVn"]

/-- Python `list.index` as an option: the index of the first occurrence. -/
def idxIn (t : Str) : List Str → Option Nat
  | [] => none
  | a :: rest => if a = t then some 0 else (idxIn t rest).map (· + 1)

/-- A marker child local name identifying the *outer* wrapper `Tx`
(xml_builder_iso.py line 144). -/
def isMarker (t : Str) : Bool := t = strOf "New" || t = strOf "Cxl"

/-- `is_inner_tx` (xml_builder_iso.py lines 128-146): local name `Tx`,
namespace auth.016, and no direct `New`/`Cxl` child. -/
def is_inner_tx (e : Elem) : Bool :=
  decide (e.tag = strOf "Tx") && decide (e.ns = some NS_AUTH) &&
    e.children.all (fun c => !isMarker c.tag)

/-- Position of the first sibling whose local name is `t`
(the inner enumerate scan of `insert_child_in_order`). -/
def findTagIdx (t : Str) : List Elem → Option Nat
  | [] => none
  | c :: cs => if c.tag = t then some 0 else (findTagIdx t cs).map (· + 1)

/-- The double scan of `insert_child_in_order` (xml_builder_iso.py lines
164-170): for each local name ranked after the new child, in rank order,
the position of the first sibling with that name; the first hit wins. -/
def findAfterPos (cs : List Elem) : List Str → Option Nat
  | [] => none
  | a :: rest =>
    match findTagIdx a cs with
    | some i => some i
    | none => findAfterPos cs rest

/-- The insertion position chosen by `insert_child_in_order`
(xml_builder_iso.py lines 148-172) for a new child with local name
`newTag`: append unless the parent is the inner record node and the name
is ranked, in which case insert before the first sibling ranked strictly
after it. -/
def insertPos (parent : Elem) (newTag : Str) : Nat :=
  if is_inner_tx parent then
    match idxIn newTag INNER_TX_ORDER with
    | none => parent.children.length
    | some k =>
      match findAfterPos parent.children (INNER_TX_ORDER.drop (k + 1)) with
      | some i => i
      | none => parent.children.length
  else parent.children.length

/-- `insert_child_in_order(parent, new_child)`. -/
def insert_child_in_order (parent : Elem) (c : Elem) : Elem :=
  parent.setChildren (insAt (insertPos parent c.tag) c parent.children)

/-- `"@" in part`. -/
def hasAmp (part : Str) : Bool := part.any (· = '@')

/-- Python `part.split("@", 1)`: element tag and attribute name. -/
def splitAtAmp (part : Str) : Str × Str :=
  (part.takeWhile (· ≠ '@'), (part.dropWhile (· ≠ '@')).drop 1)

/-- `IsoXmlBuilder._ensure_path` (xml_builder_iso.py lines 174-209),
after the path has been split: walk the segments keeping a cursor,
find-or-create each element (created children are inserted by
`insert_child_in_order`), handle an attribute marker segment by setting
the attribute on that segment's element and returning at once, and set
the terminal element's text when the last segment is element-only.
`dns` is `default_ns = get_ns(root) or NS_AUTH`, computed once at entry.
The mutation of a found or created child is rendered functionally by
putting the recursively updated child back at its position. -/
def ensurePathAux (dns : Str) : Elem → List Str → Option Str → Elem
  | cur, [], value =>
    match value with
    | some v => cur.setText v
    | none => cur
  | cur, part :: rest, value =>
    if hasAmp part then
      let elemTag := (splitAtAmp part).1
      let attrName := (splitAtAmp part).2
      if elemTag = [] then
        match value with
        | some v => cur.setAttr attrName v
        | none => cur
      else
        let ns := cur.ns.getD dns
        match findChild ns elemTag cur.children with
        | some (i, c) =>
          let c' := match value with
            | some v => c.setAttr attrName v
            | none => c
          cur.setChildren (cur.children.set i c')
        | none =>
          let newC : Elem := .mk (some ns) elemTag [] none []
          let pos := insertPos cur elemTag
          let newC' := match value with
            | some v => newC.setAttr attrName v
            | none => newC
          cur.setChildren (insAt pos newC' cur.children)
    else
      let ns := cur.ns.getD dns
      match findChild ns part cur.children with
      | some (i, c) => cur.setChildren (cur.children.set i (ensurePathAux dns c rest value))
      | none =>
        let newC : Elem := .mk (some ns) part [] none []
        let pos := insertPos cur part
        cur.setChildren (insAt pos (ensurePathAux dns newC rest value) cur.children)

/-- `parts = [p for p in path.split("/") if p]` (xml_builder_iso.py line 176). -/
def pathParts (path : Str) : List Str :=
  (splitOnChar '/' path).filter (fun p => !p.isEmpty)

/-- `IsoXmlBuilder._ensure_path(root, path, value)`. -/
def ensure_path (root : Elem) (path : Str) (value : Option Str) : Elem :=
  ensurePathAux (root.ns.getD NS_AUTH) root (pathParts path) value

/-- Walk a chain of element segments from `cur`, following the same
first-match child lookup and namespace inheritance as the ensure walk;
the element reached, if the whole chain exists. -/
def lookupE (dns : Str) : Elem → List Str → Option Elem
  | cur, [] => some cur
  | cur, part :: rest =>
    let ns := cur.ns.getD dns
    match findChild ns part cur.children with
    | some (_, c) => lookupE dns c rest
    | none => none

/-! ### Structural lemmas about the element tree -/

@[simp] theorem Elem.ns_mk (n : Option Str) (t : Str) (a : List (Str × Str)) (tx : Option Str)
    (cs : List Elem) : (Elem.mk n t a tx cs).ns = n := rfl

@[simp] theorem Elem.tag_mk (n : Option Str) (t : Str) (a : List (Str × Str)) (tx : Option Str)
    (cs : List Elem) : (Elem.mk n t a tx cs).tag = t := rfl

@[simp] theorem Elem.attrs_mk (n : Option Str) (t : Str) (a : List (Str × Str)) (tx : Option Str)
    (cs : List Elem) : (Elem.mk n t a tx cs).attrs = a := rfl

@[simp] theorem Elem.text_mk (n : Option Str) (t : Str) (a : List (Str × Str)) (tx : Option Str)
    (cs : List Elem) : (Elem.mk n t a tx cs).text = tx := rfl

@[simp] theorem Elem.children_mk (n : Option Str) (t : Str) (a : List (Str × Str))
    (tx : Option Str) (cs : List Elem) : (Elem.mk n t a tx cs).children = cs := rfl

@[simp] theorem Elem.setChildren_tag (e : Elem) (cs : List Elem) : (e.setChildren cs).tag = e.tag := by
  cases e; rfl

@[simp] theorem Elem.setChildren_ns (e : Elem) (cs : List Elem) : (e.setChildren cs).ns = e.ns := by
  cases e; rfl

@[simp] theorem Elem.setChildren_attrs (e : Elem) (cs : List Elem) :
    (e.setChildren cs).attrs = e.attrs := by
  cases e; rfl

@[simp] theorem Elem.setChildren_text (e : Elem) (cs : List Elem) :
    (e.setChildren cs).text = e.text := by
  cases e; rfl

@[simp] theorem Elem.setChildren_children (e : Elem) (cs : List Elem) :
    (e.setChildren cs).children = cs := by
  cases e; rfl

@[simp] theorem Elem.setChildren_setChildren (e : Elem) (cs cs' : List Elem) :
    (e.setChildren cs).setChildren cs' = e.setChildren cs' := by
  cases e; rfl

@[simp] theorem Elem.setChildren_self (e : Elem) : e.setChildren e.children = e := by
  cases e; rfl

@[simp] theorem Elem.setText_tag (e : Elem) (v : Str) : (e.setText v).tag = e.tag := by
  cases e; rfl

@[simp] theorem Elem.setText_ns (e : Elem) (v : Str) : (e.setText v).ns = e.ns := by
  cases e; rfl

@[simp] theorem Elem.setText_attrs (e : Elem) (v : Str) : (e.setText v).attrs = e.attrs := by
  cases e; rfl

@[simp] theorem Elem.setText_text (e : Elem) (v : Str) : (e.setText v).text = some v := by
  cases e; rfl

@[simp] theorem Elem.setText_children (e : Elem) (v : Str) :
    (e.setText v).children = e.children := by
  cases e; rfl

@[simp] theorem Elem.setText_setText (e : Elem) (v v' : Str) :
    (e.setText v).setText v' = e.setText v' := by
  cases e; rfl

@[simp] theorem Elem.setAttr_tag (e : Elem) (k v : Str) : (e.setAttr k v).tag = e.tag := by
  cases e; rfl

@[simp] theorem Elem.setAttr_ns (e : Elem) (k v : Str) : (e.setAttr k v).ns = e.ns := by
  cases e; rfl

@[simp] theorem Elem.setAttr_text (e : Elem) (k v : Str) : (e.setAttr k v).text = e.text := by
  cases e; rfl

@[simp] theorem Elem.setAttr_children (e : Elem) (k v : Str) :
    (e.setAttr k v).children = e.children := by
  cases e; rfl

@[simp] theorem Elem.setAttr_attrs (e : Elem) (k v : Str) :
    (e.setAttr k v).attrs = attrsSet e.attrs k v := by
  cases e; rfl

/-- Setting an attribute makes it readable back. -/
theorem getAttr_setAttr (e : Elem) (k v : Str) : getAttr (e.setAttr k v) k = some v := by
  unfold getAttr
  rw [Elem.setAttr_attrs]
  induction e.attrs with
  | nil => simp [attrsSet]
  | cons p rest ih =>
    by_cases hk : p.1 = k
    · cases p
      simp_all [attrsSet]
    · cases p
      simp_all [attrsSet, List.find?]

theorem insAt_le_length {α : Type} (pos : Nat) (x : α) (l : List α) :
    (insAt pos x l).length = l.length + 1 := by
  induction l generalizing pos with
  | nil => cases pos <;> rfl
  | cons a l ih =>
    cases pos with
    | zero => rfl
    | succ n => simp [insAt, ih]

theorem map_insAt {α β : Type} (f : α → β) (pos : Nat) (x : α) (l : List α) :
    (insAt pos x l).map f = insAt pos (f x) (l.map f) := by
  induction l generalizing pos with
  | nil => cases pos <;> rfl
  | cons a l ih =>
    cases pos with
    | zero => rfl
    | succ n => simp [insAt, ih]

theorem insAt_length_append {α : Type} (l1 l2 : List α) (x : α) :
    insAt l1.length x (l1 ++ l2) = l1 ++ x :: l2 := by
  induction l1 with
  | nil => cases l2 <;> rfl
  | cons a l1 ih => simp [insAt, ih]

theorem insAt_length {α : Type} (l : List α) (x : α) : insAt l.length x l = l ++ [x] := by
  have := insAt_length_append l [] x
  simpa using this

theorem set_insAt {α : Type} (pos : Nat) (c c' : α) (l : List α) (hpos : pos ≤ l.length) :
    (insAt pos c l).set pos c' = insAt pos c' l := by
  induction l generalizing pos with
  | nil =>
    have : pos = 0 := Nat.le_zero.mp hpos
    subst this
    rfl
  | cons a l ih =>
    cases pos with
    | zero => rfl
    | succ n =>
      have hn : n ≤ l.length := Nat.succ_le_succ_iff.mp hpos
      simp [insAt, ih n hn]

theorem findChild_set (ns tag : Str) (cs : List Elem) (i : Nat) (c c' : Elem)
    (h : findChild ns tag cs = some (i, c)) (hns : c'.ns = c.ns) (htag : c'.tag = c.tag) :
    findChild ns tag (cs.set i c') = some (i, c') := by
  induction cs generalizing i with
  | nil => simp [findChild] at h
  | cons d cs ih =>
    by_cases hd : d.ns = some ns ∧ d.tag = tag
    · rw [findChild, if_pos hd] at h
      obtain ⟨hi, hc⟩ : i = 0 ∧ d = c := by
        have := Option.some.inj h
        exact ⟨(Prod.mk.inj this).1.symm, (Prod.mk.inj this).2⟩
      subst hi
      subst hc
      rw [List.set_cons_zero, findChild, if_pos ⟨hns.trans hd.1, htag.trans hd.2⟩]
    · rw [findChild, if_neg hd] at h
      obtain ⟨⟨j, cj⟩, hj, hji⟩ := Option.map_eq_some'.mp h
      obtain ⟨hji1, hji2⟩ := Prod.mk.inj hji
      cases i with
      | zero => exact absurd hji1 (Nat.succ_ne_zero j)
      | succ i' =>
        have hij : j = i' := Nat.succ.inj hji1
        subst hij
        subst hji2
        rw [List.set_cons_succ, findChild, if_neg hd, ih j hj]
        rfl

theorem findChild_insAt (ns tag : Str) (cs : List Elem) (pos : Nat) (c' : Elem)
    (h : findChild ns tag cs = none) (hns : c'.ns = some ns) (htag : c'.tag = tag)
    (hpos : pos ≤ cs.length) :
    findChild ns tag (insAt pos c' cs) = some (pos, c') := by
  induction cs generalizing pos with
  | nil =>
    have : pos = 0 := Nat.le_zero.mp hpos
    subst this
    show findChild ns tag [c'] = some (0, c')
    rw [findChild, if_pos ⟨hns, htag⟩]
  | cons d cs ih =>
    rw [findChild] at h
    by_cases hd : d.ns = some ns ∧ d.tag = tag
    · rw [if_pos hd] at h; exact absurd h (Option.some_ne_none _)
    · rw [if_neg hd] at h
      have hcs : findChild ns tag cs = none := by
        cases hfc : findChild ns tag cs with
        | none => rfl
        | some p => rw [hfc] at h; simp at h
      cases pos with
      | zero =>
        show findChild ns tag (c' :: d :: cs) = some (0, c')
        rw [findChild, if_pos ⟨hns, htag⟩]
      | succ n =>
        have hn : n ≤ cs.length := Nat.succ_le_succ_iff.mp hpos
        show findChild ns tag (d :: insAt n c' cs) = some (n + 1, c')
        rw [findChild, if_neg hd, ih n hcs hn]
        rfl

theorem findChild_none_of_tag (ns tag : Str) (cs : List Elem)
    (h : ∀ c ∈ cs, c.tag ≠ tag) : findChild ns tag cs = none := by
  induction cs with
  | nil => rfl
  | cons d cs ih =>
    rw [findChild, if_neg (fun hd => h d (List.mem_cons_self d cs) hd.2)]
    rw [ih (fun c hc => h c (List.mem_cons_of_mem _ hc))]
    rfl

theorem findTagIdx_lt (t : Str) (cs : List Elem) (i : Nat) (h : findTagIdx t cs = some i) :
    i < cs.length := by
  induction cs generalizing i with
  | nil => simp [findTagIdx] at h
  | cons d cs ih =>
    rw [findTagIdx] at h
    by_cases hd : d.tag = t
    · rw [if_pos hd] at h
      have : i = 0 := (Option.some.inj h).symm
      subst this
      exact Nat.succ_pos _
    · rw [if_neg hd] at h
      obtain ⟨j, hj, hji⟩ := Option.map_eq_some'.mp h
      subst hji
      exact Nat.succ_lt_succ (ih j hj)

theorem findAfterPos_lt (cs : List Elem) (afters : List Str) (i : Nat)
    (h : findAfterPos cs afters = some i) : i < cs.length := by
  induction afters with
  | nil => simp [findAfterPos] at h
  | cons a rest ih =>
    rw [findAfterPos] at h
    cases hf : findTagIdx a cs with
    | some j =>
      rw [hf] at h
      have : j = i := Option.some.inj h
      subst this
      exact findTagIdx_lt a cs j hf
    | none =>
      rw [hf] at h
      exact ih h

theorem insertPos_le (parent : Elem) (t : Str) :
    insertPos parent t ≤ parent.children.length := by
  unfold insertPos
  split
  · split
    · exact Nat.le_refl _
    · split
      · rename_i k hidx i hap
        exact Nat.le_of_lt (findAfterPos_lt _ _ i hap)
      · exact Nat.le_refl _
  · exact Nat.le_refl _

/-- The ensure walk never changes the tag, namespace or attributes of
the node it is applied to when the first segment is not an attribute
segment on the node itself; tag and namespace are preserved always. -/
theorem ensure_tag_ns (dns : Str) (cur : Elem) (parts : List Str) (v : Option Str) :
    (ensurePathAux dns cur parts v).tag = cur.tag ∧
      (ensurePathAux dns cur parts v).ns = cur.ns := by
  cases parts with
  | nil => cases v <;> simp [ensurePathAux]
  | cons p rest =>
    rw [ensurePathAux]
    dsimp only
    repeat' split
    all_goals simp

/-! ### Unfolding lemmas for the ensure walk -/

theorem ensure_nil (dns : Str) (cur : Elem) (v : Str) :
    ensurePathAux dns cur [] (some v) = cur.setText v := rfl

theorem ensure_cons_found (dns : Str) (cur : Elem) (p : Str) (rest : List Str) (v : Option Str)
    (hp : hasAmp p = false) (i : Nat) (c : Elem)
    (hfc : findChild (cur.ns.getD dns) p cur.children = some (i, c)) :
    ensurePathAux dns cur (p :: rest) v =
      cur.setChildren (cur.children.set i (ensurePathAux dns c rest v)) := by
  rw [ensurePathAux]
  dsimp only
  rw [if_neg (by simp [hp]), hfc]

theorem ensure_cons_notfound (dns : Str) (cur : Elem) (p : Str) (rest : List Str)
    (v : Option Str) (hp : hasAmp p = false)
    (hfc : findChild (cur.ns.getD dns) p cur.children = none) :
    ensurePathAux dns cur (p :: rest) v =
      cur.setChildren (insAt (insertPos cur p)
        (ensurePathAux dns (Elem.mk (some (cur.ns.getD dns)) p [] none []) rest v)
        cur.children) := by
  rw [ensurePathAux]
  dsimp only
  rw [if_neg (by simp [hp]), hfc]

theorem lookup_cons_found (dns : Str) (cur : Elem) (p : Str) (rest : List Str)
    (i : Nat) (c : Elem) (hfc : findChild (cur.ns.getD dns) p cur.children = some (i, c)) :
    lookupE dns cur (p :: rest) = lookupE dns c rest := by
  rw [lookupE]
  try dsimp only
  rw [hfc]

/-- C3 core, first half: re-running the ensure walk over an element-only
path is the same as running it once with the second value; in particular
the second run creates no node. -/
theorem ensure_idem (dns : Str) (parts : List Str) (hparts : ∀ p ∈ parts, hasAmp p = false) :
    ∀ (cur : Elem) (v1 v2 : Str),
      ensurePathAux dns (ensurePathAux dns cur parts (some v1)) parts (some v2) =
        ensurePathAux dns cur parts (some v2) := by
  induction parts with
  | nil =>
    intro cur v1 v2
    simp [ensure_nil]
  | cons p rest ih =>
    intro cur v1 v2
    have hp : hasAmp p = false := hparts p (List.mem_cons_self p rest)
    have hrest : ∀ q ∈ rest, hasAmp q = false :=
      fun q hq => hparts q (List.mem_cons_of_mem _ hq)
    cases hfc : findChild (cur.ns.getD dns) p cur.children with
    | some ic =>
      obtain ⟨i, c⟩ := ic
      have htn := ensure_tag_ns dns c rest (some v1)
      have e1 := ensure_cons_found dns cur p rest (some v1) hp i c hfc
      have e2 := ensure_cons_found dns cur p rest (some v2) hp i c hfc
      have hfc2 : findChild (cur.ns.getD dns) p
          (cur.children.set i (ensurePathAux dns c rest (some v1))) =
          some (i, ensurePathAux dns c rest (some v1)) :=
        findChild_set _ _ _ i c _ hfc htn.2 htn.1
      have e3 := ensure_cons_found dns
        (cur.setChildren (cur.children.set i (ensurePathAux dns c rest (some v1))))
        p rest (some v2) hp i (ensurePathAux dns c rest (some v1)) (by simpa using hfc2)
      rw [e1, e3, e2]
      simp only [Elem.setChildren_setChildren, Elem.setChildren_children]
      rw [List.set_set, ih hrest c v1 v2]
    | none =>
      have htn := ensure_tag_ns dns (Elem.mk (some (cur.ns.getD dns)) p [] none []) rest (some v1)
      have hle := insertPos_le cur p
      have e1 := ensure_cons_notfound dns cur p rest (some v1) hp hfc
      have e2 := ensure_cons_notfound dns cur p rest (some v2) hp hfc
      have hfc2 : findChild (cur.ns.getD dns) p
          (insAt (insertPos cur p)
            (ensurePathAux dns (Elem.mk (some (cur.ns.getD dns)) p [] none []) rest (some v1))
            cur.children) =
          some (insertPos cur p,
            ensurePathAux dns (Elem.mk (some (cur.ns.getD dns)) p [] none []) rest (some v1)) :=
        findChild_insAt _ _ _ _ _ hfc (by simpa using htn.2) (by simpa using htn.1) hle
      have e3 := ensure_cons_found dns
        (cur.setChildren (insAt (insertPos cur p)
          (ensurePathAux dns (Elem.mk (some (cur.ns.getD dns)) p [] none []) rest (some v1))
          cur.children))
        p rest (some v2) hp (insertPos cur p)
        (ensurePathAux dns (Elem.mk (some (cur.ns.getD dns)) p [] none []) rest (some v1))
        (by simpa using hfc2)
      rw [e1, e3, e2]
      simp only [Elem.setChildren_setChildren, Elem.setChildren_children]
      rw [set_insAt _ _ _ _ hle, ih hrest _ v1 v2]

/-- C3 core, second half: after the ensure walk with value `v`, walking
the same element-only path again reaches an element whose text is `v`. -/
theorem ensure_text_lemma (dns : Str) (parts : List Str)
    (hparts : ∀ p ∈ parts, hasAmp p = false) :
    ∀ (cur : Elem) (v : Str),
      ∃ e, lookupE dns (ensurePathAux dns cur parts (some v)) parts = some e ∧
        e.text = some v := by
  induction parts with
  | nil =>
    intro cur v
    exact ⟨cur.setText v, rfl, by simp⟩
  | cons p rest ih =>
    intro cur v
    have hp : hasAmp p = false := hparts p (List.mem_cons_self p rest)
    have hrest : ∀ q ∈ rest, hasAmp q = false :=
      fun q hq => hparts q (List.mem_cons_of_mem _ hq)
    cases hfc : findChild (cur.ns.getD dns) p cur.children with
    | some ic =>
      obtain ⟨i, c⟩ := ic
      have htn := ensure_tag_ns dns c rest (some v)
      have e1 := ensure_cons_found dns cur p rest (some v) hp i c hfc
      have hfc2 : findChild (cur.ns.getD dns) p
          (cur.children.set i (ensurePathAux dns c rest (some v))) =
          some (i, ensurePathAux dns c rest (some v)) :=
        findChild_set _ _ _ i c _ hfc htn.2 htn.1
      obtain ⟨e, he, hetext⟩ := ih hrest c v
      refine ⟨e, ?_, hetext⟩
      rw [e1, lookup_cons_found dns _ p rest i _ (by simpa using hfc2)]
      exact he
    | none =>
      have htn := ensure_tag_ns dns (Elem.mk (some (cur.ns.getD dns)) p [] none []) rest (some v)
      have hle := insertPos_le cur p
      have e1 := ensure_cons_notfound dns cur p rest (some v) hp hfc
      have hfc2 : findChild (cur.ns.getD dns) p
          (insAt (insertPos cur p)
            (ensurePathAux dns (Elem.mk (some (cur.ns.getD dns)) p [] none []) rest (some v))
            cur.children) =
          some (insertPos cur p,
            ensurePathAux dns (Elem.mk (some (cur.ns.getD dns)) p [] none []) rest (some v)) :=
        findChild_insAt _ _ _ _ _ hfc (by simpa using htn.2) (by simpa using htn.1) hle
      obtain ⟨e, he, hetext⟩ := ih hrest (Elem.mk (some (cur.ns.getD dns)) p [] none []) v
      refine ⟨e, ?_, hetext⟩
      rw [e1, lookup_cons_found dns _ p rest (insertPos cur p) _ (by simpa using hfc2)]
      exact he

/-- A demonstration root: an outer transaction wrapper element in the
auth.016 namespace, as created by `append_tx`. -/
def demoTx : Elem := Elem.mk (some NS_AUTH) (strOf "Tx") [] none []

/-- C3: ensure-path is idempotent on element-only paths.  Calling
`_ensure_path(root, p, v1)` and then `_ensure_path(root, p, v2)` on the
result creates each element of the chain exactly once — the second call
is equal to a single call with `v2` on the original root, so it reuses
every node instead of duplicating a sibling with the same qualified tag
at the same position — and walking the path in the final tree reaches an
element whose text is `v2` (the second call overwrites the text).
(xml_builder_iso.py lines 174-209.) -/
theorem claim_C3_ensure_idempotent (root : Elem) (path : Str) (v1 v2 : Str)
    (h : ∀ p ∈ pathParts path, hasAmp p = false) :
    ensure_path (ensure_path root path (some v1)) path (some v2) =
        ensure_path root path (some v2) ∧
      ∃ e, lookupE (root.ns.getD NS_AUTH)
          (ensure_path (ensure_path root path (some v1)) path (some v2))
          (pathParts path) = some e ∧ e.text = some v2 := by
  have hdns : (ensure_path root path (some v1)).ns = root.ns := by
    unfold ensure_path
    exact (ensure_tag_ns _ _ _ _).2
  have hmain : ensure_path (ensure_path root path (some v1)) path (some v2) =
      ensure_path root path (some v2) := by
    unfold ensure_path
    unfold ensure_path at hdns
    rw [hdns]
    exact ensure_idem (root.ns.getD NS_AUTH) (pathParts path) h root v1 v2
  refine ⟨hmain, ?_⟩
  rw [hmain]
  unfold ensure_path
  exact ensure_text_lemma (root.ns.getD NS_AUTH) (pathParts path) h root v2

/-- C3 witness: twice ensuring `New/Tx/Qty` on a fresh wrapper equals
ensuring it once with the final value, and the terminal text is the
final value. -/
theorem claim_C3_ensure_idempotent_witness :
    ensure_path (ensure_path demoTx (strOf "New/Tx/Qty") (some (strOf "10")))
          (strOf "New/Tx/Qty") (some (strOf "25")) =
        ensure_path demoTx (strOf "New/Tx/Qty") (some (strOf "25")) ∧
      ∃ e, lookupE (demoTx.ns.getD NS_AUTH)
          (ensure_path (ensure_path demoTx (strOf "New/Tx/Qty") (some (strOf "10")))
            (strOf "New/Tx/Qty") (some (strOf "25")))
          (pathParts (strOf "New/Tx/Qty")) = some e ∧ e.text = some (strOf "25") :=
  claim_C3_ensure_idempotent demoTx (strOf "New/Tx/Qty") (strOf "10") (strOf "25") (by decide)

/-- C9: in `IsoXmlBuilder._ensure_path`, a segment containing the
attribute marker `@` always terminates the walk — the `return` at
xml_builder_iso.py line 196 fires whether or not further segments
remain.  For any path `front ++ [a] ++ rest` whose segment `a` contains
`@` (and whose earlier segments do not), the result equals that of the
truncated path `front ++ [a]`: no element is created for any remaining
segment, no text is written (the attribute branch never writes text),
and no error is raised (the embedded walk is total). -/
theorem claim_C9_attr_segment_truncates (dns : Str) (front : List Str) (a : Str)
    (rest : List Str) (v : Option Str) (ha : hasAmp a = true)
    (hfront : ∀ s ∈ front, hasAmp s = false) :
    ∀ cur : Elem, ensurePathAux dns cur (front ++ a :: rest) v =
      ensurePathAux dns cur (front ++ [a]) v := by
  induction front with
  | nil =>
    intro cur
    show ensurePathAux dns cur (a :: rest) v = ensurePathAux dns cur (a :: []) v
    rw [ensurePathAux, ensurePathAux]
    simp only [ha]
    rfl
  | cons q front' ih =>
    intro cur
    have hq : hasAmp q = false := hfront q (List.mem_cons_self q front')
    have hfront' : ∀ s ∈ front', hasAmp s = false :=
      fun s hs => hfront s (List.mem_cons_of_mem _ hs)
    show ensurePathAux dns cur (q :: (front' ++ a :: rest)) v =
      ensurePathAux dns cur (q :: (front' ++ [a])) v
    cases hfc : findChild (cur.ns.getD dns) q cur.children with
    | some ic =>
      obtain ⟨i, c⟩ := ic
      rw [ensure_cons_found dns cur q _ v hq i c hfc,
          ensure_cons_found dns cur q _ v hq i c hfc, ih hfront' c]
    | none =>
      rw [ensure_cons_notfound dns cur q _ v hq hfc,
          ensure_cons_notfound dns cur q _ v hq hfc, ih hfront' _]

/-- C9 witness: the inner `@` segment of `New/Amt@Ccy/Extra/More` makes
the walk ignore `Extra/More`. -/
theorem claim_C9_attr_segment_truncates_witness :
    ensurePathAux NS_AUTH demoTx
        (strOf "New" :: strOf "Amt@Ccy" :: [strOf "Extra", strOf "More"]) (some (strOf "EUR")) =
      ensurePathAux NS_AUTH demoTx ([strOf "New"] ++ [strOf "Amt@Ccy"]) (some (strOf "EUR")) :=
  claim_C9_attr_segment_truncates NS_AUTH [strOf "New"] (strOf "Amt@Ccy")
    [strOf "Extra", strOf "More"] (some (strOf "EUR")) (by decide) (by decide) demoTx

/-! ### The attribute-terminal branch (C5) -/

theorem takeWhile_append_all (p : Char → Bool) (l1 l2 : Str) (h : ∀ c ∈ l1, p c = true) :
    List.takeWhile p (l1 ++ l2) = l1 ++ List.takeWhile p l2 := by
  induction l1 with
  | nil => rfl
  | cons c cs ih =>
    have hc : p c = true := h c (List.mem_cons_self c cs)
    simp only [List.cons_append, List.takeWhile_cons, hc, if_true]
    rw [ih (fun x hx => h x (List.mem_cons_of_mem _ hx))]

theorem dropWhile_append_all (p : Char → Bool) (l1 l2 : Str) (h : ∀ c ∈ l1, p c = true) :
    List.dropWhile p (l1 ++ l2) = List.dropWhile p l2 := by
  induction l1 with
  | nil => rfl
  | cons c cs ih =>
    have hc : p c = true := h c (List.mem_cons_self c cs)
    simp only [List.cons_append, List.dropWhile_cons, hc, if_true]
    exact ih (fun x hx => h x (List.mem_cons_of_mem _ hx))

theorem hasAmp_no_amp (tag : Str) (h : hasAmp tag = false) : ∀ c ∈ tag, c ≠ '@' := by
  intro c hc he
  subst he
  unfold hasAmp at h
  rw [List.any_eq_false] at h
  have := h '@' hc
  simp at this

theorem hasAmp_append_amp (tag attr : Str) : hasAmp (tag ++ '@' :: attr) = true := by
  unfold hasAmp
  rw [List.any_append]
  simp

theorem splitAtAmp_of_append (tag attr : Str) (h : hasAmp tag = false) :
    splitAtAmp (tag ++ '@' :: attr) = (tag, attr) := by
  unfold splitAtAmp
  have hall : ∀ c ∈ tag, (fun c => decide (c ≠ '@')) c = true := by
    intro c hc
    simpa using hasAmp_no_amp tag h c hc
  rw [takeWhile_append_all _ tag ('@' :: attr) hall,
      dropWhile_append_all _ tag ('@' :: attr) hall]
  simp [List.takeWhile_cons, List.dropWhile_cons]

theorem lookup_cons_notfound (dns : Str) (cur : Elem) (p : Str) (rest : List Str)
    (hfc : findChild (cur.ns.getD dns) p cur.children = none) :
    lookupE dns cur (p :: rest) = none := by
  rw [lookupE]
  try dsimp only
  rw [hfc]

theorem lookup_childless (dns : Str) (cur : Elem) (p : Str) (rest : List Str)
    (h : cur.children = []) : lookupE dns cur (p :: rest) = none := by
  apply lookup_cons_notfound
  rw [h]
  rfl

/-- The attribute branch of the ensure walk when the element part is
found: the attribute is set on the found child in place. -/
theorem ensure_amp_found (dns : Str) (cur : Elem) (tag attr : Str) (rest : List Str) (v : Str)
    (htag : hasAmp tag = false) (hne : tag ≠ []) (i : Nat) (c : Elem)
    (hfc : findChild (cur.ns.getD dns) tag cur.children = some (i, c)) :
    ensurePathAux dns cur ((tag ++ '@' :: attr) :: rest) (some v) =
      cur.setChildren (cur.children.set i (c.setAttr attr v)) := by
  rw [ensurePathAux]
  dsimp only
  rw [if_pos (by simp [hasAmp_append_amp]), splitAtAmp_of_append tag attr htag]
  dsimp only
  rw [if_neg hne, hfc]

/-- The attribute branch of the ensure walk when the element part is
absent: a fresh element carrying only the attribute is inserted in
order. -/
theorem ensure_amp_notfound (dns : Str) (cur : Elem) (tag attr : Str) (rest : List Str)
    (v : Str) (htag : hasAmp tag = false) (hne : tag ≠ [])
    (hfc : findChild (cur.ns.getD dns) tag cur.children = none) :
    ensurePathAux dns cur ((tag ++ '@' :: attr) :: rest) (some v) =
      cur.setChildren (insAt (insertPos cur tag)
        ((Elem.mk (some (cur.ns.getD dns)) tag [] none []).setAttr attr v)
        cur.children) := by
  rw [ensurePathAux]
  dsimp only
  rw [if_pos (by simp [hasAmp_append_amp]), splitAtAmp_of_append tag attr htag]
  dsimp only
  rw [if_neg hne, hfc]

/-- C5: for every path whose terminal segment carries an attribute
marker `Element@attr` (earlier segments element-only) and value `v`,
the ensure walk (xml_builder_iso.py lines 180-196) finds-or-creates the
element part as usual, sets attribute `attr` to `v` on that element, and
writes no text to it from this path: the element reached over
`front ++ [tag]` afterwards carries the attribute, and its text and
children are exactly those it had before (none and empty when freshly
created). -/
theorem claim_C5_attribute_terminal (dns : Str) (front : List Str) (tag attr : Str)
    (hfront : ∀ p ∈ front, hasAmp p = false) (htag : hasAmp tag = false) (hne : tag ≠ []) :
    ∀ (cur : Elem) (v : Str),
      ∃ e, lookupE dns (ensurePathAux dns cur (front ++ [tag ++ '@' :: attr]) (some v))
          (front ++ [tag]) = some e ∧
        getAttr e attr = some v ∧
        e.text = (match lookupE dns cur (front ++ [tag]) with
                  | some e0 => e0.text
                  | none => none) ∧
        e.children = (match lookupE dns cur (front ++ [tag]) with
                  | some e0 => e0.children
                  | none => []) := by
  induction front with
  | nil =>
    intro cur v
    cases hfc : findChild (cur.ns.getD dns) tag cur.children with
    | some ic =>
      obtain ⟨i, c⟩ := ic
      rw [List.nil_append, List.nil_append,
        ensure_amp_found dns cur tag attr [] v htag hne i c hfc]
      have hfc2 : findChild (cur.ns.getD dns) tag (cur.children.set i (c.setAttr attr v)) =
          some (i, c.setAttr attr v) :=
        findChild_set _ _ _ i c _ hfc (by simp) (by simp)
      refine ⟨c.setAttr attr v, ?_, getAttr_setAttr c attr v, ?_, ?_⟩
      · rw [lookup_cons_found dns _ tag [] i _ (by simpa using hfc2)]
        rfl
      · rw [lookup_cons_found dns cur tag [] i c hfc]
        simp [lookupE]
      · rw [lookup_cons_found dns cur tag [] i c hfc]
        simp [lookupE]
    | none =>
      rw [List.nil_append, List.nil_append,
        ensure_amp_notfound dns cur tag attr [] v htag hne hfc]
      have hfc2 : findChild (cur.ns.getD dns) tag
          (insAt (insertPos cur tag)
            ((Elem.mk (some (cur.ns.getD dns)) tag [] none []).setAttr attr v)
            cur.children) =
          some (insertPos cur tag,
            (Elem.mk (some (cur.ns.getD dns)) tag [] none []).setAttr attr v) :=
        findChild_insAt _ _ _ _ _ hfc (by simp) (by simp)
          (insertPos_le cur tag)
      refine ⟨(Elem.mk (some (cur.ns.getD dns)) tag [] none []).setAttr attr v, ?_,
        getAttr_setAttr _ attr v, ?_, ?_⟩
      · rw [lookup_cons_found dns _ tag [] (insertPos cur tag) _ (by simpa using hfc2)]
        rfl
      · rw [lookup_cons_notfound dns cur tag [] hfc]
        rfl
      · rw [lookup_cons_notfound dns cur tag [] hfc]
        rfl
  | cons q front' ih =>
    intro cur v
    have hq : hasAmp q = false := hfront q (List.mem_cons_self q front')
    have hfront' : ∀ p ∈ front', hasAmp p = false :=
      fun p hp => hfront p (List.mem_cons_of_mem _ hp)
    rw [List.cons_append, List.cons_append]
    cases hfc : findChild (cur.ns.getD dns) q cur.children with
    | some ic =>
      obtain ⟨i, c⟩ := ic
      rw [ensure_cons_found dns cur q _ (some v) hq i c hfc]
      have htn := ensure_tag_ns dns c (front' ++ [tag ++ '@' :: attr]) (some v)
      have hfc2 : findChild (cur.ns.getD dns) q
          (cur.children.set i (ensurePathAux dns c (front' ++ [tag ++ '@' :: attr]) (some v))) =
          some (i, ensurePathAux dns c (front' ++ [tag ++ '@' :: attr]) (some v)) :=
        findChild_set _ _ _ i c _ hfc htn.2 htn.1
      obtain ⟨e, he, hattr, htext, hch⟩ := ih hfront' c v
      refine ⟨e, ?_, hattr, ?_, ?_⟩
      · rw [lookup_cons_found dns _ q (front' ++ [tag]) i _ (by simpa using hfc2)]
        exact he
      · rw [lookup_cons_found dns cur q (front' ++ [tag]) i c hfc]
        exact htext
      · rw [lookup_cons_found dns cur q (front' ++ [tag]) i c hfc]
        exact hch
    | none =>
      rw [ensure_cons_notfound dns cur q _ (some v) hq hfc]
      have htn := ensure_tag_ns dns (Elem.mk (some (cur.ns.getD dns)) q [] none [])
        (front' ++ [tag ++ '@' :: attr]) (some v)
      have hfc2 : findChild (cur.ns.getD dns) q
          (insAt (insertPos cur q)
            (ensurePathAux dns (Elem.mk (some (cur.ns.getD dns)) q [] none [])
              (front' ++ [tag ++ '@' :: attr]) (some v))
            cur.children) =
          some (insertPos cur q,
            ensurePathAux dns (Elem.mk (some (cur.ns.getD dns)) q [] none [])
              (front' ++ [tag ++ '@' :: attr]) (some v)) :=
        findChild_insAt _ _ _ _ _ hfc (by simpa using htn.2) (by simpa using htn.1)
          (insertPos_le cur q)
      obtain ⟨e, he, hattr, htext, hch⟩ :=
        ih hfront' (Elem.mk (some (cur.ns.getD dns)) q [] none []) v
      have hinner : lookupE dns (Elem.mk (some (cur.ns.getD dns)) q [] none [])
          (front' ++ [tag]) = none := by
        obtain ⟨x, xs, hxs⟩ : ∃ x xs, front' ++ [tag] = x :: xs := by
          cases front' with
          | nil => exact ⟨tag, [], rfl⟩
          | cons y ys => exact ⟨y, ys ++ [tag], rfl⟩
        rw [hxs]
        exact lookup_childless dns (Elem.mk (some (cur.ns.getD dns)) q [] none []) x xs rfl
      refine ⟨e, ?_, hattr, ?_, ?_⟩
      · rw [lookup_cons_found dns _ q (front' ++ [tag]) (insertPos cur q) _ (by simpa using hfc2)]
        exact he
      · rw [lookup_cons_notfound dns cur q (front' ++ [tag]) hfc]
        rw [hinner] at htext
        exact htext
      · rw [lookup_cons_notfound dns cur q (front' ++ [tag]) hfc]
        rw [hinner] at hch
        exact hch

/-- C5 witness: `Amt@Ccy` with value `EUR` on a fresh wrapper produces
an `Amt` element with attribute `Ccy="EUR"`, no text and no children. -/
theorem claim_C5_attribute_terminal_witness :
    ∃ e, lookupE NS_AUTH (ensurePathAux NS_AUTH demoTx
          ([] ++ [strOf "Amt" ++ '@' :: strOf "Ccy"]) (some (strOf "EUR")))
        ([] ++ [strOf "Amt"]) = some e ∧
      getAttr e (strOf "Ccy") = some (strOf "EUR") ∧
      e.text = (match lookupE NS_AUTH demoTx ([] ++ [strOf "Amt"]) with
                | some e0 => e0.text
                | none => none) ∧
      e.children = (match lookupE NS_AUTH demoTx ([] ++ [strOf "Amt"]) with
                | some e0 => e0.children
                | none => []) :=
  claim_C5_attribute_terminal NS_AUTH [] (strOf "Amt") (strOf "Ccy")
    (by decide) (by decide) (by decide) demoTx (strOf "EUR")

/-! ### The field mapper (mapper.py, C8) -/

/-- A mapping rule (config.py lines 20-23): `from` names either an input
column or a literal/macro, `to` is the target path. -/
structure MappingRule where
  from_field : Str
  to_path : Str

/-- Python `dict.get` over an association list (a CSV row: column name
to trimmed string value). -/
def dictGet : List (Str × Str) → Str → Option Str
  | [], _ => none
  | (k', v) :: rest, k => if k' = k then some v else dictGet rest k

/-- `FieldMapper.to_xml_fields` (mapper.py lines 12-29): for each rule
in declaration order, take the row's column value when the column is
present, else resolve the rule's source as a macro/literal; skip the
rule when the value is absent or the empty string; otherwise emit
`(to_path, value)`. -/
def to_xml_fields (env : Str → Option Str) (now : Str) (data : List (Str × Str)) :
    List MappingRule → List (Str × Str)
  | [] => []
  | r :: rest =>
    let val : Option Str :=
      match dictGet data r.from_field with
      | some v => some v
      | none => some (resolve_macros env now r.from_field)
    match val with
    | none => to_xml_fields env now data rest
    | some v =>
      if v = [] then to_xml_fields env now data rest
      else (r.to_path, v) :: to_xml_fields env now data rest

/-- The value the mapper resolves for one rule, and whether it is
emitted: `none` exactly when the resolved value is empty. -/
def emitRule (env : Str → Option Str) (now : Str) (data : List (Str × Str))
    (r : MappingRule) : Option (Str × Str) :=
  let v := match dictGet data r.from_field with
    | some v => v
    | none => resolve_macros env now r.from_field
  if v = [] then none else some (r.to_path, v)

/-- C8: the mapper emits exactly the rules whose resolved value is
non-empty, in declaration order, with their resolved values — it is the
`filterMap` of `emitRule` over the rule list.  A rule resolving to the
empty string (or to an absent value: mapper.py line 25 also guards
`val is None`, though a CSV row never stores one) contributes no
`(path, value)` pair, so no element, empty or otherwise, is ever created
for it downstream. -/
theorem claim_C8_skip_empty (env : Str → Option Str) (now : Str) (data : List (Str × Str))
    (rules : List MappingRule) :
    to_xml_fields env now data rules = rules.filterMap (emitRule env now data) := by
  induction rules with
  | nil => rfl
  | cons r rest ih =>
    rw [to_xml_fields, List.filterMap_cons]
    cases hdg : dictGet data r.from_field with
    | some v =>
      by_cases hv : v = []
      · have hemit : emitRule env now data r = none := by simp [emitRule, hdg, hv]
        simp [hdg, hv, hemit, ih]
      · have hemit : emitRule env now data r = some (r.to_path, v) := by
          simp [emitRule, hdg, hv]
        simp [hdg, hv, hemit, ih]
    | none =>
      by_cases hv : resolve_macros env now r.from_field = []
      · have hemit : emitRule env now data r = none := by simp [emitRule, hdg, hv]
        simp [hdg, hv, hemit, ih]
      · have hemit : emitRule env now data r =
            some (r.to_path, resolve_macros env now r.from_field) := by
          simp [emitRule, hdg, hv]
        simp [hdg, hv, hemit, ih]

/-! ### The enhanced builder: append_tx, build_root, generate (C4, C2) -/

/-- The `<New>` marker child (`append_tx`, xml_builder_iso.py line 97). -/
def txNew (msgNs : Str) : Elem := Elem.mk (some msgNs) (strOf "New") [] none []

/-- `IsoXmlBuilder.append_tx` (xml_builder_iso.py lines 89-101): always
create a fresh `Tx` wrapper under the container, ensure a single `New`
child exists under it (the find is modelled faithfully though the fresh
wrapper can never already contain one), then drive `_ensure_path` once
per mapped field with the wrapper as root. -/
def append_tx (msgNs : Str) (container : Elem) (fields : List (Str × Str)) : Elem :=
  let tx0 : Elem := Elem.mk (some msgNs) (strOf "Tx") [] none []
  let tx1 := match findChild msgNs (strOf "New") tx0.children with
    | some _ => tx0
    | none => tx0.setChildren (tx0.children ++ [txNew msgNs])
  let tx2 := fields.foldl (fun t pv => ensure_path t pv.1 (some pv.2)) tx1
  container.setChildren (container.children ++ [tx2])

/-- The record fragment `append_tx` builds for one row's fields. -/
def txBuilt (msgNs : Str) (fields : List (Str × Str)) : Elem :=
  fields.foldl (fun t pv => ensure_path t pv.1 (some pv.2))
    (Elem.mk (some msgNs) (strOf "Tx") [] none [txNew msgNs])

theorem append_tx_eq (msgNs : Str) (container : Elem) (fields : List (Str × Str)) :
    append_tx msgNs container fields =
      container.setChildren (container.children ++ [txBuilt msgNs fields]) := rfl

/-- The empty record container `<FinInstrmRptgTxRpt>` created by
`build_root` (xml_builder_iso.py line 81). -/
def emptyContainer (msgNs : Str) : Elem :=
  Elem.mk (some msgNs) (strOf "FinInstrmRptgTxRpt") [] none []

/-- The sender/receiver identity block of `build_root`
(xml_builder_iso.py lines 43-62): OrgId > Id > OrgId > Othr >
(Id holding the LEI, SchmeNm > Prtry "LEI"). -/
def orgIdent (h1 lei : Str) : Elem :=
  Elem.mk (some h1) (strOf "OrgId") [] none
    [Elem.mk (some h1) (strOf "Id") [] none
      [Elem.mk (some h1) (strOf "OrgId") [] none
        [Elem.mk (some h1) (strOf "Othr") [] none
          [Elem.mk (some h1) (strOf "Id") [] (some lei) [],
           Elem.mk (some h1) (strOf "SchmeNm") [] none
             [Elem.mk (some h1) (strOf "Prtry") [] (some (strOf "LEI")) []]]]]]

/-- `IsoXmlBuilder.build_root` (xml_builder_iso.py lines 17-83), built
around a given record container.  The four namespace URIs are passed
already resolved (the happy path of the `_uri` lookups); the fresh
`uuid4` hex fragment and the `CreDt` clock reading are explicit
parameters `bizMsgId` and `creDt`, since both are fresh external reads. -/
def build_root (env : Str → Option Str) (now : Str) (h3 h1 msg xsi : Str)
    (schemaLoc : Option Str) (bizMsgId creDt : Str) (container : Elem) : Elem :=
  Elem.mk (some h3) (strOf "BizData")
    (match schemaLoc with
     | some sl =>
        [('\x7b' :: xsi ++ '\x7d' :: strOf "schemaLocation", resolve_macros env now sl)]
     | none => [])
    none
    [Elem.mk (some h3) (strOf "Hdr") [] none
      [Elem.mk (some h1) (strOf "AppHdr") [] none
        [Elem.mk (some h1) (strOf "Fr") [] none
          [orgIdent h1 (resolve_macros env now (strOf "\x7bENV:FIRM_LEI:UNKNOWN\x7d"))],
         Elem.mk (some h1) (strOf "To") [] none
          [orgIdent h1 (resolve_macros env now (strOf "\x7bENV:TO_LEI:UNKNOWN\x7d"))],
         Elem.mk (some h1) (strOf "BizMsgIdr") [] (some (strOf "mf-" ++ bizMsgId)) [],
         Elem.mk (some h1) (strOf "MsgDefIdr") [] (some (strOf "auth.016.001.01")) [],
         Elem.mk (some h1) (strOf "CreDt") [] (some creDt) []]],
     Elem.mk (some h3) (strOf "Pyld") [] none
      [Elem.mk (some msg) (strOf "Document") [] none [container]]]

/-- `ReportGenerator.generate` (generator.py lines 30-48), lxml path:
build the skeleton once, then for every input row map its fields and
append one transaction fragment into the record container. -/
def generate (env : Str → Option Str) (now : Str) (h3 h1 msg xsi : Str)
    (schemaLoc : Option Str) (bizMsgId creDt : Str) (rules : List MappingRule)
    (rows : List (List (Str × Str))) : Elem :=
  build_root env now h3 h1 msg xsi schemaLoc bizMsgId creDt
    (rows.foldl (fun c row => append_tx msg c (to_xml_fields env now row rules))
      (emptyContainer msg))

theorem foldl_append_tx (msgNs : Str) {β : Type} (g : β → List (Str × Str)) (fs : List β) :
    ∀ c : Elem, fs.foldl (fun c f => append_tx msgNs c (g f)) c =
      c.setChildren (c.children ++ fs.map (fun f => txBuilt msgNs (g f))) := by
  induction fs with
  | nil => intro c; simp
  | cons f fs ih =>
    intro c
    rw [List.foldl_cons, append_tx_eq, ih]
    simp

/-- C4: for every input of N rows, the generated document is the
skeleton (built exactly once by `build_root`, independent of N) around
the record container whose children are exactly the N record-wrapper
fragments, one freshly created per row in row order — `append_tx`
unconditionally creates a new `Tx` (xml_builder_iso.py line 93), so
wrappers are never reused across rows — and the container holds exactly
N wrapper children. -/
theorem claim_C4_one_wrapper_per_row (env : Str → Option Str) (now : Str)
    (h3 h1 msg xsi : Str) (schemaLoc : Option Str) (bizMsgId creDt : Str)
    (rules : List MappingRule) (rows : List (List (Str × Str))) :
    generate env now h3 h1 msg xsi schemaLoc bizMsgId creDt rules rows =
        build_root env now h3 h1 msg xsi schemaLoc bizMsgId creDt
          ((emptyContainer msg).setChildren
            (rows.map (fun row => txBuilt msg (to_xml_fields env now row rules)))) ∧
      (rows.foldl (fun c row => append_tx msg c (to_xml_fields env now row rules))
          (emptyContainer msg)).children.length = rows.length := by
  constructor
  · unfold generate
    rw [foldl_append_tx msg (fun row => to_xml_fields env now row rules) rows
      (emptyContainer msg)]
    rfl
  · rw [foldl_append_tx msg (fun row => to_xml_fields env now row rules) rows
      (emptyContainer msg)]
    simp [emptyContainer]

/-! ### The baseline builder (xml_builder.py, C2) -/

/-- The error raised by `XmlBuilder._qname` (xml_builder.py line 22):
`KeyError(f"Unknown namespace prefix '...' in qname '...'")`, carrying
the offending path segment head. -/
inductive NsErr : Type where
  | unknownNs : Str → NsErr

/-- `XmlBuilder._qname` (xml_builder.py lines 17-24): a qualified name
containing a colon is split once; the head must map to a non-empty URI
in the configured namespace map, else the UnknownPrefix error; the
expanded Clark-notation tag is returned.  A name with no colon passes
through with no namespace. -/
def baseline_qname (nsmap : Str → Option Str) (q : Str) : Except NsErr Str :=
  if q.any (· = ':') then
    let pfx := q.takeWhile (· ≠ ':')
    let loc := (q.dropWhile (· ≠ ':')).drop 1
    match nsmap pfx with
    | some uri =>
      if uri = [] then Except.error (NsErr.unknownNs pfx)
      else Except.ok ('\x7b' :: uri ++ '\x7d' :: loc)
    | none => Except.error (NsErr.unknownNs pfx)
  else Except.ok q

/-- The baseline `current.find(tag)`: first direct child with the given
expanded tag (the baseline stores the whole Clark-notation tag). -/
def findChildTag (tag : Str) : List Elem → Option (Nat × Elem)
  | [] => none
  | c :: cs =>
    if c.tag = tag then some (0, c)
    else (findChildTag tag cs).map (fun p => (p.1 + 1, p.2))

/-- `XmlBuilder._ensure_path` (xml_builder.py lines 61-72), after the
split on `/`: expand each segment through `_qname` (aborting with the
UnknownPrefix error), find-or-create (plain append, no ordering), and
set the terminal element's text. -/
def baseline_ensure_path (nsmap : Str → Option Str) (base : Elem) :
    List Str → Str → Except NsErr Elem
  | [], _ => Except.ok base
  | [part], value =>
    match baseline_qname nsmap part with
    | Except.error e => Except.error e
    | Except.ok tag =>
      match findChildTag tag base.children with
      | some (i, c) => Except.ok (base.setChildren (base.children.set i (c.setText value)))
      | none => Except.ok (base.setChildren (base.children ++
          [(Elem.mk none tag [] none []).setText value]))
  | part :: rest, value =>
    match baseline_qname nsmap part with
    | Except.error e => Except.error e
    | Except.ok tag =>
      match findChildTag tag base.children with
      | some (i, c) =>
        match baseline_ensure_path nsmap c rest value with
        | Except.error e => Except.error e
        | Except.ok c' => Except.ok (base.setChildren (base.children.set i c'))
      | none =>
        match baseline_ensure_path nsmap (Elem.mk none tag [] none []) rest value with
        | Except.error e => Except.error e
        | Except.ok c' => Except.ok (base.setChildren (base.children ++ [c']))

/-- `XmlBuilder._ensure_path(base, path, value)` with Python's
`path.split("/")` (no empty-segment filtering in the baseline). -/
def baseline_ensure_path_str (nsmap : Str → Option Str) (base : Elem) (path value : Str) :
    Except NsErr Elem :=
  baseline_ensure_path nsmap base (splitOnChar '/' path) value

/-- C2 counterexample: the claim fails for the enhanced (preferred,
lxml) builder, which is the one `ReportGenerator.generate` uses.
Generating from one row under a mapping rule whose target path is the
qualified segment `zz:Foo` — with `zz` absent from every namespace map;
indeed the enhanced ensure walk consults no namespace map at all —
raises no UnknownPrefix error and produces a record container holding a
wrapper whose children are the `New` marker and an element whose tag is
the whole string `zz:Foo`, treated as a local name under the inherited
namespace: a document containing that field is produced. -/
theorem claim_C2_counterexample :
    (List.foldl
        (fun c row => append_tx NS_AUTH c
          (to_xml_fields emptyEnv fixedNow row [⟨strOf "isin", strOf "zz:Foo"⟩]))
        (emptyContainer NS_AUTH) [[(strOf "isin", strOf "X1")]]).children.map
      (fun tx => tx.children.map Elem.tag) = [[strOf "New", strOf "zz:Foo"]] := by
  decide

/-- C2 (amended): only the *baseline* builder resolves prefixes in
mapping paths.  Under the baseline builder, a mapping rule targeting
`zz:Foo` with `zz` absent from (or empty in) the configured namespace
map aborts the ensure step — and hence generation, which runs all
ensure steps before writing — with the UnknownPrefix error naming `zz`,
so no output containing that field is written.  The enhanced builder
performs no prefix lookup on path segments (see the counterexample): it
never raises UnknownPrefix for them. -/
theorem claim_C2_amended (nsmap : Str → Option Str) (base : Elem) (v : Str)
    (h : nsmap (strOf "zz") = none) :
    baseline_ensure_path_str nsmap base (strOf "zz:Foo") v =
      Except.error (NsErr.unknownNs (strOf "zz")) := by
  unfold baseline_ensure_path_str
  have hsplit : splitOnChar '/' (strOf "zz:Foo") = [strOf "zz:Foo"] := by decide
  rw [hsplit, baseline_ensure_path]
  have hq : baseline_qname nsmap (strOf "zz:Foo") =
      Except.error (NsErr.unknownNs (strOf "zz")) := by
    unfold baseline_qname
    rw [if_pos (by decide)]
    have hpfx : (strOf "zz:Foo").takeWhile (· ≠ ':') = strOf "zz" := by decide
    rw [hpfx]
    dsimp only
    rw [h]
  rw [hq]

/-- C2 witness: the amended claim at the empty namespace map. -/
theorem claim_C2_amended_witness :
    baseline_ensure_path_str emptyEnv demoTx (strOf "zz:Foo") (strOf "v") =
      Except.error (NsErr.unknownNs (strOf "zz")) :=
  claim_C2_amended emptyEnv demoTx (strOf "v") rfl

/-! ### The ordering policy (C1): name-level analysis -/

/-- `findAfterPos` seen through the children's local names only. -/
def findAfterPosN (tags : List Str) : List Str → Option Nat
  | [] => none
  | a :: rest =>
    match idxIn a tags with
    | some i => some i
    | none => findAfterPosN tags rest

theorem findTagIdx_eq_idxIn (t : Str) (cs : List Elem) :
    findTagIdx t cs = idxIn t (cs.map Elem.tag) := by
  induction cs with
  | nil => rfl
  | cons c cs ih =>
    rw [findTagIdx, List.map_cons, idxIn, ih]

theorem findAfterPos_eq_N (cs : List Elem) (afters : List Str) :
    findAfterPos cs afters = findAfterPosN (cs.map Elem.tag) afters := by
  induction afters with
  | nil => rfl
  | cons a rest ih =>
    rw [findAfterPos, findAfterPosN, findTagIdx_eq_idxIn, ih]

theorem idxIn_eq_none_of_notmem (t : Str) (l : List Str) (h : t ∉ l) : idxIn t l = none := by
  induction l with
  | nil => rfl
  | cons a l ih =>
    have ha : ¬a = t := by
      intro ha
      rw [← ha] at h
      exact h (List.mem_cons_self a l)
    rw [idxIn, if_neg ha, ih (fun hm => h (List.mem_cons_of_mem a hm))]
    rfl

theorem idxIn_append_of_notmem (t : Str) (l1 l2 : List Str) (h : t ∉ l1) :
    idxIn t (l1 ++ l2) = (idxIn t l2).map (l1.length + ·) := by
  induction l1 with
  | nil =>
    rw [List.nil_append]
    cases h2 : idxIn t l2 with
    | none => rfl
    | some i => simp
  | cons a l1 ih =>
    have ha : ¬a = t := by
      intro ha
      rw [← ha] at h
      exact h (List.mem_cons_self a l1)
    rw [List.cons_append, idxIn, if_neg ha, ih (fun hm => h (List.mem_cons_of_mem a hm))]
    cases idxIn t l2 with
    | none => rfl
    | some i =>
      simp only [Option.map_some', List.length_cons]
      congr 1
      omega

theorem idxIn_self_append (t : Str) (l1 l2 : List Str) (h : t ∉ l1) :
    idxIn t (l1 ++ t :: l2) = some l1.length := by
  rw [idxIn_append_of_notmem t l1 _ h, idxIn, if_pos rfl]
  simp

theorem findAfterPosN_nil_tags (afters : List Str) : findAfterPosN [] afters = none := by
  induction afters with
  | nil => rfl
  | cons a rest ih => rw [findAfterPosN, idxIn, ih]

theorem findAfterPosN_append_disjoint (tags1 tags2 : List Str) (afters : List Str)
    (h : ∀ a ∈ afters, a ∉ tags1) :
    findAfterPosN (tags1 ++ tags2) afters =
      (findAfterPosN tags2 afters).map (tags1.length + ·) := by
  induction afters with
  | nil => rfl
  | cons a rest ih =>
    rw [findAfterPosN, findAfterPosN,
      idxIn_append_of_notmem a tags1 tags2 (h a (List.mem_cons_self a rest))]
    cases idxIn a tags2 with
    | some i => rfl
    | none => exact ih (fun x hx => h x (List.mem_cons_of_mem a hx))

theorem findAfterPosN_filter_self (q : Str → Bool) (B : List Str) (hB : B.Nodup) :
    findAfterPosN (B.filter q) B =
      if (B.filter q).isEmpty then none else some 0 := by
  induction B with
  | nil => rfl
  | cons b B' ih =>
    have hbB' : b ∉ B' := (List.nodup_cons.mp hB).1
    have hB' : B'.Nodup := (List.nodup_cons.mp hB).2
    rw [List.filter_cons]
    by_cases hq : q b
    · rw [if_pos hq]
      rw [findAfterPosN, idxIn, if_pos rfl]
      rfl
    · rw [if_neg hq]
      rw [findAfterPosN]
      have hnb : b ∉ B'.filter q := fun hm => hbB' (List.mem_of_mem_filter hm)
      rw [idxIn_eq_none_of_notmem b _ hnb]
      exact ih hB'

/-- The heart of the ordering argument: inserting a fresh ranked name
`n` (rank position `A.length` in the policy `A ++ n :: B`) into a
sibling list that is the policy filtered by `q` lands exactly between
the kept part of `A` and the kept part of `B`, using the position the
double scan of `insert_child_in_order` computes. -/
theorem ordered_insert_names (A B : List Str) (n : Str) (q : Str → Bool)
    (hnodup : (A ++ n :: B).Nodup) :
    insAt
      (match findAfterPosN (List.filter q A ++ List.filter q B) B with
       | some i => i
       | none => (List.filter q A ++ List.filter q B).length)
      n (List.filter q A ++ List.filter q B)
    = List.filter q A ++ n :: List.filter q B := by
  obtain ⟨hA, hnB, hdisj⟩ := List.nodup_append.mp hnodup
  have hBnodup : B.Nodup := (List.nodup_cons.mp hnB).2
  have hdisj' : ∀ a ∈ B, a ∉ List.filter q A := by
    intro a ha hmem
    exact hdisj (List.mem_of_mem_filter hmem) (List.mem_cons_of_mem n ha)
  rw [findAfterPosN_append_disjoint _ _ B hdisj', findAfterPosN_filter_self q B hBnodup]
  by_cases hfB : (B.filter q).isEmpty
  · have hBe : B.filter q = [] := List.isEmpty_iff.mp hfB
    rw [if_pos hfB]
    simp only [Option.map_none']
    rw [hBe, List.append_nil, insAt_length]
  · rw [if_neg hfB]
    simp only [Option.map_some']
    have : (List.filter q A).length + 0 = (List.filter q A).length := Nat.add_zero _
    rw [this, insAt_length_append]

/-- Facts about the five ranked local names: none contains `@` or `/`
(so each is a one-segment element-only path) and none is a marker. -/
theorem ranked_names_plain : ∀ x ∈ INNER_TX_ORDER,
    hasAmp x = false ∧ pathParts x = [x] ∧ isMarker x = false := by decide

/-- C1 invariant: folding ensure-path insertions of fresh distinct
ranked names over an inner record node whose current ranked children
are exactly the policy filtered by the already-inserted set `t` keeps
the children equal to the policy filtered by the grown set. -/
theorem C1_fold_inv (l : List (Str × Str)) :
    ∀ (t : List Str) (e : Elem),
      e.tag = strOf "Tx" → e.ns = some NS_AUTH →
      e.children.map Elem.tag = INNER_TX_ORDER.filter (fun x => decide (x ∈ t)) →
      (t ++ l.map Prod.fst).Nodup →
      (∀ x ∈ l.map Prod.fst, x ∈ INNER_TX_ORDER) →
      (l.foldl (fun e nv => ensure_path e nv.1 (some nv.2)) e).children.map Elem.tag =
        INNER_TX_ORDER.filter (fun x => decide (x ∈ t ++ l.map Prod.fst)) := by
  induction l with
  | nil =>
    intro t e _ _ hch _ _
    rw [List.foldl_nil, hch, List.map_nil, List.append_nil]
  | cons nv l ih =>
    obtain ⟨n, v⟩ := nv
    intro t e htag hns hch hnodup hlmem
    have hnO : n ∈ INNER_TX_ORDER := hlmem n (by simp)
    have hnt : n ∉ t := by
      intro hmem
      obtain ⟨_, _, hd⟩ := List.nodup_append.mp hnodup
      exact hd hmem (List.mem_cons_self _ _)
    obtain ⟨hampn, hppn, _⟩ := ranked_names_plain n hnO
    have hdnsE : e.ns.getD NS_AUTH = NS_AUTH := by rw [hns]; rfl
    have hinner : is_inner_tx e = true := by
      unfold is_inner_tx
      rw [htag, hns]
      have h1 : decide ((strOf "Tx" : Str) = strOf "Tx") = true := by decide
      have h2 : decide ((some NS_AUTH : Option Str) = some NS_AUTH) = true := by decide
      rw [h1, h2]
      simp only [Bool.true_and]
      rw [List.all_eq_true]
      intro c hc
      have hmem : c.tag ∈ INNER_TX_ORDER := by
        have hmm : c.tag ∈ e.children.map Elem.tag := List.mem_map_of_mem Elem.tag hc
        rw [hch] at hmm
        exact List.mem_of_mem_filter hmm
      obtain ⟨_, _, hm⟩ := ranked_names_plain c.tag hmem
      rw [hm]
      rfl
    have hfc : findChild NS_AUTH n e.children = none := by
      apply findChild_none_of_tag
      intro c hc hct
      have hmm : c.tag ∈ e.children.map Elem.tag := List.mem_map_of_mem Elem.tag hc
      rw [hch, hct] at hmm
      have := List.of_mem_filter hmm
      rw [decide_eq_true_iff] at this
      exact hnt this
    have hstep : ensure_path e n (some v) =
        e.setChildren (insAt (insertPos e n)
          (Elem.mk (some NS_AUTH) n [] (some v) []) e.children) := by
      unfold ensure_path
      rw [hppn, hdnsE]
      rw [ensure_cons_notfound NS_AUTH e n [] (some v) hampn (by rw [hdnsE]; exact hfc)]
      rw [hdnsE]
      rfl
    -- the ordering argument
    obtain ⟨A, B, hAB⟩ := List.append_of_mem hnO
    have hordNodup : (A ++ n :: B).Nodup := by
      rw [← hAB]
      decide
    obtain ⟨hAnd, hconsNd, hdisjAB⟩ := List.nodup_append.mp hordNodup
    have hnA : n ∉ A := fun hm => hdisjAB hm (List.mem_cons_self n B)
    have hnB : n ∉ B := (List.nodup_cons.mp hconsNd).1
    have hidx : idxIn n INNER_TX_ORDER = some A.length := by
      rw [hAB]
      exact idxIn_self_append n A B hnA
    have hdrop : INNER_TX_ORDER.drop (A.length + 1) = B := by
      rw [hAB, List.append_cons]
      have hl1 : A.length + 1 = (A ++ [n]).length := by simp
      rw [hl1, List.drop_left]
    have hqn : decide (n ∈ t) = false := by simp [hnt]
    have hfilterAB : INNER_TX_ORDER.filter (fun x => decide (x ∈ t)) =
        List.filter (fun x => decide (x ∈ t)) A ++
          List.filter (fun x => decide (x ∈ t)) B := by
      rw [hAB, List.filter_append, List.filter_cons]
      simp only [hqn]
      rfl
    have hposeq : insertPos e n =
        (match findAfterPosN (List.filter (fun x => decide (x ∈ t)) A ++
            List.filter (fun x => decide (x ∈ t)) B) B with
         | some i => i
         | none => (List.filter (fun x => decide (x ∈ t)) A ++
            List.filter (fun x => decide (x ∈ t)) B).length) := by
      unfold insertPos
      rw [if_pos hinner, hidx]
      show (match findAfterPos e.children (INNER_TX_ORDER.drop (A.length + 1)) with
            | some i => i
            | none => e.children.length) = _
      rw [hdrop, findAfterPos_eq_N, hch, hfilterAB]
      cases hN : findAfterPosN (List.filter (fun x => decide (x ∈ t)) A ++
          List.filter (fun x => decide (x ∈ t)) B) B with
      | some i => rfl
      | none =>
        rw [show e.children.length = (e.children.map Elem.tag).length from
          (List.length_map _ _).symm, hch, hfilterAB]
    have hkey := ordered_insert_names A B n (fun x => decide (x ∈ t)) hordNodup
    have hfA : List.filter (fun x => decide (x ∈ t ++ [n])) A =
        List.filter (fun x => decide (x ∈ t)) A := by
      apply List.filter_congr
      intro x hx
      have hxn : x ≠ n := fun hxe => hnA (hxe ▸ hx)
      rw [decide_eq_decide]
      simp [hxn]
    have hfB : List.filter (fun x => decide (x ∈ t ++ [n])) B =
        List.filter (fun x => decide (x ∈ t)) B := by
      apply List.filter_congr
      intro x hx
      have hxn : x ≠ n := fun hxe => hnB (hxe ▸ hx)
      rw [decide_eq_decide]
      simp [hxn]
    have htags' : (e.setChildren (insAt (insertPos e n)
          (Elem.mk (some NS_AUTH) n [] (some v) []) e.children)).children.map Elem.tag =
        INNER_TX_ORDER.filter (fun x => decide (x ∈ t ++ [n])) := by
      rw [Elem.setChildren_children, map_insAt]
      simp only [Elem.tag_mk]
      rw [hch, hfilterAB, hposeq, hkey]
      rw [hAB, List.filter_append, List.filter_cons]
      have hq'n : decide (n ∈ t ++ [n]) = true := by simp
      simp only [hq'n, if_true]
      rw [hfA, hfB]
    have hnodup2 : ((t ++ [n]) ++ l.map Prod.fst).Nodup := by
      simp only [List.map_cons] at hnodup
      rw [List.append_cons] at hnodup
      exact hnodup
    have hlmem' : ∀ x ∈ l.map Prod.fst, x ∈ INNER_TX_ORDER := by
      intro x hx
      exact hlmem x (by simp [hx])
    have hres := ih (t ++ [n])
      (e.setChildren (insAt (insertPos e n)
        (Elem.mk (some NS_AUTH) n [] (some v) []) e.children))
      (by simp [htag]) (by simp [hns]) htags' hnodup2 hlmem'
    show ((l.foldl (fun e nv => ensure_path e nv.1 (some nv.2))
        (ensure_path e n (some v)))).children.map Elem.tag =
      INNER_TX_ORDER.filter (fun x => decide (x ∈ t ++ List.map Prod.fst ((n, v) :: l)))
    rw [hstep, hres]
    simp only [List.map_cons]
    have hll : t ++ [n] ++ List.map Prod.fst l = t ++ n :: List.map Prod.fst l :=
      (List.append_cons t n (l.map Prod.fst)).symm
    rw [hll]

/-- C1: ordering invariant of the inner record context.  Starting from
a freshly created inner record node (local name `Tx`, auth.016
namespace, no children — the state every inner record node is created
in, and which satisfies the recognized context predicate
`is_inner_tx`), inserting any set of fields targeting distinct ranked
local names (`TradDt`, `TradgCpcty`, `Qty`, `Pric`, `TradVn`) via
ensure-path in any order yields children whose sibling order is exactly
the policy's declared rank order (`INNER_TX_ORDER` filtered to the
inserted names); and under any node matching the context, a child whose
local name has no declared rank is appended at the end by
`insert_child_in_order`, using the same rank lookup. -/
theorem claim_C1_ordering_invariant :
    (∀ l : List (Str × Str), (l.map Prod.fst).Nodup →
      (∀ x ∈ l.map Prod.fst, x ∈ INNER_TX_ORDER) →
      ((l.foldl (fun e nv => ensure_path e nv.1 (some nv.2)) demoTx).children.map Elem.tag) =
        INNER_TX_ORDER.filter (fun x => decide (x ∈ l.map Prod.fst))) ∧
    (∀ e c : Elem, is_inner_tx e = true → idxIn c.tag INNER_TX_ORDER = none →
      insert_child_in_order e c = e.setChildren (e.children ++ [c])) := by
  constructor
  · intro l hnd hmem
    have hstart : demoTx.children.map Elem.tag =
        INNER_TX_ORDER.filter (fun x => decide (x ∈ ([] : List Str))) := by decide
    have := C1_fold_inv l [] demoTx rfl rfl hstart (by simpa using hnd) hmem
    simpa using this
  · intro e c hinner hrk
    unfold insert_child_in_order insertPos
    rw [if_pos hinner, hrk]
    show e.setChildren (insAt e.children.length c e.children) = _
    rw [insAt_length]

/-- C1 witness: inserting `Qty` then `TradDt` (not in rank order) under
a fresh inner record node yields the children in rank order
`TradDt, Qty`; and an unranked `Othr` child is appended at the end. -/
theorem claim_C1_ordering_invariant_witness :
    (([(strOf "Qty", strOf "7"), (strOf "TradDt", strOf "D")].foldl
        (fun e nv => ensure_path e nv.1 (some nv.2)) demoTx).children.map Elem.tag) =
      [strOf "TradDt", strOf "Qty"] ∧
    insert_child_in_order demoTx (Elem.mk (some NS_AUTH) (strOf "Othr") [] none []) =
      demoTx.setChildren (demoTx.children ++
        [Elem.mk (some NS_AUTH) (strOf "Othr") [] none []]) :=
  ⟨(claim_C1_ordering_invariant.1 [(strOf "Qty", strOf "7"), (strOf "TradDt", strOf "D")]
      (by decide) (by decide)).trans (by decide),
   claim_C1_ordering_invariant.2 demoTx (Elem.mk (some NS_AUTH) (strOf "Othr") [] none [])
      (by decide) (by decide)⟩
